import Mathlib

/-!
Shallow embedding of the `workspace-launch-by-link` VS Code extension
(`src/extension.ts`), covering:

* the `RetryQueue` class (strict-FIFO infinite-retry task runner),
* the backoff delay evolution (`delay = 1000; ...; delay = min(delay*2, 30000)`),
* the file-watcher event handlers (`onDidCreate`, `onDidChangeTextDocument` debounce),
* path relativization (`path.relative(root, abs).replace(/\\/g, '/')`),
* `cleanupOldSessions`,
* `downloadAndMaterializeWorkspace` / `writeFileFromBase64`,
* base64 and UTF-8 encoding used by `sendFileSnapshot`.

The JavaScript runtime is single-threaded with cooperative scheduling: an
`async` function runs synchronously until its first `await`.  The queue model
below is a small-step machine whose steps are exactly the resumptions at the
suspension points of `RetryQueue.run`, so arbitrary interleavings of `enqueue`
calls with loop progress are expressible as action scripts.
-/

namespace WLBL

/-- A delivery task, abstracted by its behaviour: `fails` is the number of
attempts that will throw before the task finally resolves.  `id` is its
enqueue serial number (the queue itself never inspects the payload). -/
structure Task where
  id : Nat
  fails : Nat
  deriving DecidableEq, Repr

/-- Observable events of the drain loop, in chronological order:
a failed attempt of a task, a backoff sleep (`setTimeout(r, delay)`),
or a successful completion (`await task()` resolving). -/
inductive Ev where
  | fail (id : Nat)
  | wait (ms : Nat)
  | done (id : Nat)
  deriving DecidableEq, Repr

/-- State of a `RetryQueue` instance plus the trace of what has happened.

`queue` is `this.queue` (tasks not yet shifted); `running` is `this.running`;
`current` is the task the drain loop has shifted and is attempting (the loop
is suspended at `await task()` / the backoff `setTimeout`); `delay` is the
local `delay` variable for the current task. -/
structure QState where
  queue : List Task
  running : Bool
  current : Option Task
  delay : Nat
  trace : List Ev
  deriving Repr

/-- The initial (idle) queue. -/
def QState.init : QState :=
  { queue := [], running := false, current := none, delay := 1000, trace := [] }

/-- `enqueue(task)`: push the task, then call `run()`.  `run` synchronously
checks `this.running`; if already running it returns at once (the call only
appended).  Otherwise it sets `this.running = true` *before any await*,
enters the `while` loop, shifts the head and sets `delay = 1000`, and first
suspends at `await task()`. -/
def enqueue (s : QState) (t : Task) : QState :=
  if s.running then { s with queue := s.queue ++ [t] }
  else
    match s.queue ++ [t] with
    | [] => { s with queue := [] }   -- unreachable: the queue just received `t`
    | t' :: rest =>
      { s with queue := rest, running := true, current := some t', delay := 1000 }

/-- One resumption of the suspended drain loop.

If the pending attempt succeeds (`fails = 0`): record the completion, `break`
out of the retry `for`, re-test `while (this.queue.length)`; if empty the loop
exits and the `finally` clears `this.running`; otherwise shift the next task
and reset `delay = 1000` (the `let delay` is re-initialized per task).

If the attempt throws (`fails > 0`): record the failure, sleep `delay`, then
`delay = Math.min(delay * 2, 30000)` and re-attempt the same task. -/
def step (s : QState) : QState :=
  match s.current with
  | none => s
  | some t =>
    if t.fails = 0 then
      let s' := { s with trace := s.trace ++ [Ev.done t.id] }
      match s'.queue with
      | [] => { s' with queue := [], running := false, current := none }
      | t' :: rest => { s' with queue := rest, current := some t', delay := 1000 }
    else
      { s with
          trace := s.trace ++ [Ev.fail t.id, Ev.wait s.delay],
          current := some { t with fails := t.fails - 1 },
          delay := min (s.delay * 2) 30000 }

/-- External stimuli: an `enqueue` call (with the task's failure budget), or
scheduler progress resuming the drain loop at its pending suspension. -/
inductive Act where
  | enq (fails : Nat)
  | step
  deriving DecidableEq, Repr

/-- The system state: the queue plus the serial number the next enqueued task
will receive. -/
structure Sys where
  st : QState
  nextId : Nat
  deriving Repr

def Sys.init : Sys := { st := QState.init, nextId := 0 }

def doAct (s : Sys) : Act → Sys
  | Act.enq f => { st := enqueue s.st ⟨s.nextId, f⟩, nextId := s.nextId + 1 }
  | Act.step => { s with st := step s.st }

/-- Run an action script from the initial system. -/
def execA (acts : List Act) : Sys := acts.foldl doAct Sys.init

/-- Ids carried by trace events (`wait` carries none). -/
def evId : Ev → Option Nat
  | Ev.fail i => some i
  | Ev.done i => some i
  | Ev.wait _ => none

/-- The chronological sequence of task ids that were *executed* (attempted,
successfully or not). -/
def idsOf (tr : List Ev) : List Nat := tr.filterMap evId

/-- The chronological sequence of task ids that *completed*. -/
def doneIds (tr : List Ev) : List Nat :=
  tr.filterMap fun e => match e with | Ev.done i => some i | _ => none

/-- The backoff sleeps recorded in a trace, in order. -/
def waitsOf (tr : List Ev) : List Nat :=
  tr.filterMap fun e => match e with | Ev.wait d => some d | _ => none

@[simp] theorem doneIds_append (tr tr' : List Ev) :
    doneIds (tr ++ tr') = doneIds tr ++ doneIds tr' :=
  List.filterMap_append ..

@[simp] theorem idsOf_append (tr tr' : List Ev) :
    idsOf (tr ++ tr') = idsOf tr ++ idsOf tr' :=
  List.filterMap_append ..

@[simp] theorem waitsOf_append (tr tr' : List Ev) :
    waitsOf (tr ++ tr') = waitsOf tr ++ waitsOf tr' :=
  List.filterMap_append ..

@[simp] theorem doneIds_done (i : Nat) : doneIds [Ev.done i] = [i] := rfl
@[simp] theorem doneIds_failwait (i d : Nat) : doneIds [Ev.fail i, Ev.wait d] = [] := rfl
@[simp] theorem doneIds_nil : doneIds [] = [] := rfl
@[simp] theorem idsOf_done (i : Nat) : idsOf [Ev.done i] = [i] := rfl
@[simp] theorem idsOf_failwait (i d : Nat) : idsOf [Ev.fail i, Ev.wait d] = [i] := rfl
@[simp] theorem idsOf_nil : idsOf [] = [] := rfl
@[simp] theorem waitsOf_done (i : Nat) : waitsOf [Ev.done i] = [] := rfl
@[simp] theorem waitsOf_nil : waitsOf [] = [] := rfl

@[simp] theorem doneIds_cons_fail (i : Nat) (tr : List Ev) :
    doneIds (Ev.fail i :: tr) = doneIds tr := rfl
@[simp] theorem doneIds_cons_wait (d : Nat) (tr : List Ev) :
    doneIds (Ev.wait d :: tr) = doneIds tr := rfl
@[simp] theorem doneIds_cons_done (i : Nat) (tr : List Ev) :
    doneIds (Ev.done i :: tr) = i :: doneIds tr := rfl
@[simp] theorem idsOf_cons_fail (i : Nat) (tr : List Ev) :
    idsOf (Ev.fail i :: tr) = i :: idsOf tr := rfl
@[simp] theorem idsOf_cons_wait (d : Nat) (tr : List Ev) :
    idsOf (Ev.wait d :: tr) = idsOf tr := rfl
@[simp] theorem idsOf_cons_done (i : Nat) (tr : List Ev) :
    idsOf (Ev.done i :: tr) = i :: idsOf tr := rfl
@[simp] theorem waitsOf_cons_fail (i : Nat) (tr : List Ev) :
    waitsOf (Ev.fail i :: tr) = waitsOf tr := rfl
@[simp] theorem waitsOf_cons_wait (d : Nat) (tr : List Ev) :
    waitsOf (Ev.wait d :: tr) = d :: waitsOf tr := rfl
@[simp] theorem waitsOf_cons_done (i : Nat) (tr : List Ev) :
    waitsOf (Ev.done i :: tr) = waitsOf tr := rfl

/-- Appending one element that dominates everything in the list keeps the
list weakly increasing. -/
theorem chain'_append_le {l : List Nat} {c : Nat}
    (h : l.Chain' (· ≤ ·)) (hb : ∀ i ∈ l, i ≤ c) : (l ++ [c]).Chain' (· ≤ ·) := by
  rw [List.chain'_append]
  refine ⟨h, List.chain'_singleton c, ?_⟩
  intro x hx y hy
  simp only [List.head?_cons, Option.mem_def, Option.some.injEq] at hy
  subst hy
  obtain ⟨hne, hx'⟩ := List.mem_getLast?_eq_getLast hx
  exact hx' ▸ hb _ (List.getLast_mem hne)

/-- `enqueue` during a drain only appends the task: the running flag, the
task under attempt, its backoff state and the trace are untouched. -/
theorem enqueue_running {s : QState} {t : Task} (h : s.running = true) :
    enqueue s t = { s with queue := s.queue ++ [t] } := by
  simp [enqueue, h]

/-- `enqueue` on the idle queue (whose queue list is empty in every reachable
state) synchronously sets `running`, shifts the new task and resets the
backoff, suspending just before the first attempt. -/
theorem enqueue_idle {s : QState} {t : Task} (h : s.running = false) (hq : s.queue = []) :
    enqueue s t = { s with queue := [], running := true, current := some t, delay := 1000 } := by
  simp [enqueue, h, hq]

theorem step_none {s : QState} (h : s.current = none) : step s = s := by
  simp [step, h]

theorem step_fail {s : QState} {t : Task} (h : s.current = some t) (hf : t.fails ≠ 0) :
    step s = { s with trace := s.trace ++ [Ev.fail t.id, Ev.wait s.delay],
                      current := some { t with fails := t.fails - 1 },
                      delay := min (s.delay * 2) 30000 } := by
  simp [step, h, hf]

theorem step_done_nil {s : QState} {t : Task} (h : s.current = some t) (hf : t.fails = 0)
    (hq : s.queue = []) :
    step s = { s with trace := s.trace ++ [Ev.done t.id],
                      queue := [], running := false, current := none } := by
  simp [step, h, hf, hq]

theorem step_done_cons {s : QState} {t t' : Task} {rest : List Task}
    (h : s.current = some t) (hf : t.fails = 0) (hq : s.queue = t' :: rest) :
    step s = { s with trace := s.trace ++ [Ev.done t.id],
                      queue := rest, current := some t', delay := 1000 } := by
  simp [step, h, hf, hq]

/-- The FIFO invariant of reachable queue states.

Writing `c` for the number of completed tasks: completions in the trace are
exactly `0, 1, …, c-1` in order; the executed-id sequence is weakly
increasing; the task being attempted (if any) is task `c`, with the waiting
queue holding exactly tasks `c+1, …` in order; when idle the queue is empty
and every executed id is already completed. -/
def Inv (s : Sys) : Prop :=
  doneIds s.st.trace = List.range (doneIds s.st.trace).length
  ∧ (idsOf s.st.trace).Chain' (· ≤ ·)
  ∧ (∀ t : Task, s.st.current = some t →
       t.id = (doneIds s.st.trace).length ∧ s.st.running = true
       ∧ s.st.queue.map Task.id
           = List.range' ((doneIds s.st.trace).length + 1) s.st.queue.length
       ∧ s.nextId = (doneIds s.st.trace).length + 1 + s.st.queue.length
       ∧ ∀ i ∈ idsOf s.st.trace, i ≤ (doneIds s.st.trace).length)
  ∧ (s.st.current = none →
       s.st.queue = [] ∧ s.st.running = false
       ∧ s.nextId = (doneIds s.st.trace).length
       ∧ ∀ i ∈ idsOf s.st.trace, i < (doneIds s.st.trace).length)

theorem inv_init : Inv Sys.init := by
  refine ⟨rfl, List.chain'_nil, ?_, ?_⟩
  · intro t ht; exact Option.noConfusion ht
  · intro _; exact ⟨rfl, rfl, rfl, by intro i hi; exact absurd hi (List.not_mem_nil i)⟩

theorem inv_doAct (s : Sys) (h : Inv s) (a : Act) : Inv (doAct s a) := by
  obtain ⟨hdone, hchain, hsome, hnone⟩ := h
  cases a with
  | enq f =>
    show Inv { st := enqueue s.st ⟨s.nextId, f⟩, nextId := s.nextId + 1 }
    cases hc : s.st.current with
    | some t =>
      obtain ⟨hid, hrun, hq, hnext, hids⟩ := hsome t hc
      rw [enqueue_running hrun]
      refine ⟨hdone, hchain, ?_, ?_⟩
      · intro t' ht'
        dsimp only at ht' ⊢
        rw [hc] at ht'
        injection ht' with he
        subst he
        refine ⟨hid, hrun, ?_, ?_, hids⟩
        · simp only [List.map_append, List.map_cons, List.map_nil, hq,
            List.length_append, List.length_cons, List.length_nil, hnext]
          rw [show s.st.queue.length + (0 + 1) = s.st.queue.length + 1 from by omega,
            List.range'_concat]
          simp only [one_mul]
        · simp only [List.length_append, List.length_cons, List.length_nil]
          omega
      · intro ht'
        dsimp only at ht'
        rw [hc] at ht'
        exact Option.noConfusion ht'
    | none =>
      obtain ⟨hq, hrun, hnext, hids⟩ := hnone hc
      rw [enqueue_idle hrun hq]
      refine ⟨hdone, hchain, ?_, ?_⟩
      · intro t' ht'
        dsimp only at ht' ⊢
        injection ht' with he
        subst he
        refine ⟨hnext, rfl, rfl, by simp [hnext], ?_⟩
        intro i hi
        exact Nat.le_of_lt (hids i hi)
      · intro ht'
        dsimp only at ht'
        exact Option.noConfusion ht'
  | step =>
    show Inv { st := step s.st, nextId := s.nextId }
    cases hc : s.st.current with
    | none =>
      rw [step_none hc]
      exact ⟨hdone, hchain, hsome, hnone⟩
    | some t =>
      obtain ⟨hid, hrun, hq, hnext, hids⟩ := hsome t hc
      by_cases hf : t.fails = 0
      · cases hqe : s.st.queue with
        | nil =>
          rw [step_done_nil hc hf hqe]
          rw [hqe] at hnext
          refine ⟨?_, ?_, ?_, ?_⟩
          · dsimp only
            simp only [doneIds_append, doneIds_done, List.length_append,
              List.length_cons, List.length_nil]
            rw [hdone, hid, ← List.range_succ]
            congr 1
            simp only [List.length_range]
          · dsimp only
            simp only [idsOf_append, idsOf_done]
            exact chain'_append_le hchain (fun i hi => hid ▸ hids i hi)
          · intro t' ht'
            dsimp only at ht'
            exact Option.noConfusion ht'
          · intro _
            dsimp only
            refine ⟨rfl, rfl, ?_, ?_⟩
            · simp only [doneIds_append, doneIds_done, List.length_append,
                List.length_cons, List.length_nil, List.length_nil] at hnext ⊢
              omega
            · intro i hi
              simp only [idsOf_append, idsOf_done, List.mem_append,
                List.mem_cons, List.not_mem_nil, or_false] at hi
              simp only [doneIds_append, doneIds_done, List.length_append,
                List.length_cons, List.length_nil]
              rcases hi with hi | hi
              · have := hids i hi; omega
              · omega
        | cons t' rest =>
          rw [step_done_cons hc hf hqe]
          rw [hqe] at hq hnext
          simp only [List.map_cons, List.length_cons, List.range'_succ,
            List.cons.injEq] at hq
          obtain ⟨ht'id, hrest⟩ := hq
          refine ⟨?_, ?_, ?_, ?_⟩
          · dsimp only
            simp only [doneIds_append, doneIds_done, List.length_append,
              List.length_cons, List.length_nil]
            rw [hdone, hid, ← List.range_succ]
            congr 1
            simp only [List.length_range]
          · dsimp only
            simp only [idsOf_append, idsOf_done]
            exact chain'_append_le hchain (fun i hi => hid ▸ hids i hi)
          · intro u hu
            dsimp only at hu ⊢
            injection hu with he
            subst he
            simp only [doneIds_append, doneIds_done, List.length_append,
              List.length_cons, List.length_nil]
            refine ⟨by omega, hrun, ?_, by simp only [List.length_cons] at hnext; omega, ?_⟩
            · rw [hrest]
            · intro i hi
              simp only [idsOf_append, idsOf_done, List.mem_append,
                List.mem_cons, List.not_mem_nil, or_false] at hi
              rcases hi with hi | hi
              · have := hids i hi; omega
              · omega
          · intro hu
            dsimp only at hu
            exact Option.noConfusion hu
      · rw [step_fail hc hf]
        refine ⟨?_, ?_, ?_, ?_⟩
        · dsimp only
          simp only [doneIds_append, doneIds_failwait, List.append_nil]
          exact hdone
        · dsimp only
          simp only [idsOf_append, idsOf_failwait]
          exact chain'_append_le hchain (fun i hi => hid ▸ hids i hi)
        · intro u hu
          dsimp only at hu ⊢
          injection hu with he
          subst he
          simp only [doneIds_append, doneIds_failwait, List.append_nil]
          refine ⟨hid, hrun, hq, hnext, ?_⟩
          intro i hi
          simp only [idsOf_append, idsOf_failwait, List.mem_append,
            List.mem_cons, List.not_mem_nil, or_false] at hi
          rcases hi with hi | hi
          · exact hids i hi
          · omega
        · intro hu
          dsimp only at hu
          exact Option.noConfusion hu

theorem inv_execA (acts : List Act) : Inv (execA acts) := by
  suffices h : ∀ (s : Sys), Inv s → Inv (acts.foldl doAct s) from h Sys.init inv_init
  induction acts with
  | nil => intro s hs; exact hs
  | cons a rest ih => intro s hs; exact ih _ (inv_doAct s hs a)

/-! Canonical complete runs: enqueue a batch of tasks, then let the drain
loop run to quiescence. -/

/-- Tasks with consecutive ids starting at `n`, one per failure budget. -/
def mkTasks : Nat → List Nat → List Task
  | _, [] => []
  | n, f :: fs => ⟨n, f⟩ :: mkTasks (n + 1) fs

@[simp] theorem mkTasks_nil (n : Nat) : mkTasks n [] = [] := rfl
@[simp] theorem mkTasks_cons (n f : Nat) (fs : List Nat) :
    mkTasks n (f :: fs) = ⟨n, f⟩ :: mkTasks (n + 1) fs := rfl

theorem mkTasks_map_id (fs : List Nat) :
    ∀ n, (mkTasks n fs).map Task.id = List.range' n fs.length := by
  induction fs with
  | nil => intro n; rfl
  | cons f fs ih => intro n; simp [List.range'_succ, ih]

theorem mkTasks_map_cost (fs : List Nat) :
    ∀ n, (mkTasks n fs).map (fun u => u.fails + 1) = fs.map (· + 1) := by
  induction fs with
  | nil => intro n; rfl
  | cons f fs ih => intro n; simp [ih]

theorem foldl_enq_running (fs : List Nat) : ∀ (s : Sys), s.st.running = true →
    (fs.map Act.enq).foldl doAct s
      = { st := { s.st with queue := s.st.queue ++ mkTasks s.nextId fs },
          nextId := s.nextId + fs.length } := by
  induction fs with
  | nil =>
    intro s hs
    simp only [List.map_nil, List.foldl_nil, mkTasks_nil, List.append_nil,
      List.length_nil, Nat.add_zero]
  | cons f fs ih =>
    intro s hs
    simp only [List.map_cons, List.foldl_cons]
    rw [show doAct s (Act.enq f)
        = { st := enqueue s.st ⟨s.nextId, f⟩, nextId := s.nextId + 1 } from rfl,
      enqueue_running hs,
      ih { st := { s.st with queue := s.st.queue ++ [⟨s.nextId, f⟩] },
           nextId := s.nextId + 1 } hs]
    have hqe : (s.st.queue ++ [(⟨s.nextId, f⟩ : Task)]) ++ mkTasks (s.nextId + 1) fs
        = s.st.queue ++ mkTasks s.nextId (f :: fs) := by
      simp
    rw [hqe]
    congr 1
    simp [List.length_cons]
    omega

theorem foldl_steps (n : Nat) : ∀ (s : Sys),
    (List.replicate n Act.step).foldl doAct s = { s with st := step^[n] s.st } := by
  induction n with
  | zero => intro s; simp
  | succ n ih =>
    intro s
    simp only [List.replicate_succ, List.foldl_cons]
    rw [show doAct s Act.step = { s with st := step s.st } from rfl, ih]
    rw [Function.iterate_succ_apply]

/-- The failure/backoff block emitted by `k` consecutive failed attempts of
task `id`, starting from backoff `d`: each failure is followed by a sleep of
the current `delay`, which then doubles, capped at 30000 ms. -/
def failTrace (id : Nat) : Nat → Nat → List Ev
  | _, 0 => []
  | d, k + 1 => Ev.fail id :: Ev.wait d :: failTrace id (min (d * 2) 30000) k

/-- The value of the `delay` variable after `k` failures starting from `d`. -/
def delayAfter : Nat → Nat → Nat
  | d, 0 => d
  | d, k + 1 => delayAfter (min (d * 2) 30000) k

/-- The backoff sleep durations of `k` consecutive failures starting at `d`. -/
def backoffSeq : Nat → Nat → List Nat
  | _, 0 => []
  | d, k + 1 => d :: backoffSeq (min (d * 2) 30000) k

theorem step_fails_iter : ∀ (k : Nat) (s : QState) (t : Task),
    s.current = some t → t.fails = k →
    step^[k] s = { s with trace := s.trace ++ failTrace t.id s.delay k,
                          current := some { t with fails := 0 },
                          delay := delayAfter s.delay k } := by
  intro k
  induction k with
  | zero =>
    intro s t hc hf
    have ht : ({ t with fails := 0 } : Task) = t := by
      cases t; simp_all
    simp [failTrace, delayAfter, ht, ← hc]
  | succ k ih =>
    intro s t hc hf
    rw [Function.iterate_succ_apply, step_fail hc (by omega),
      ih _ { t with fails := t.fails - 1 } rfl (by simp; omega)]
    simp only [failTrace, delayAfter, hf]
    have hk : t.fails - 1 = k := by omega
    simp [List.append_assoc]

/-- The full trace of one task drained from the head at the standard initial
backoff: its failure block followed by its completion. -/
def taskTrace (t : Task) : List Ev := failTrace t.id 1000 t.fails ++ [Ev.done t.id]

/-- Draining the current task and then the whole queue: the trace extends by
the concatenated per-task blocks, in queue order, and the loop ends idle. -/
theorem drain (q : List Task) : ∀ (s : QState) (t : Task),
    s.current = some t → s.queue = q → s.delay = 1000 →
    let n := t.fails + 1 + (q.map (fun u => u.fails + 1)).sum
    (step^[n] s).trace = s.trace ++ taskTrace t ++ (q.map taskTrace).flatten
    ∧ (step^[n] s).queue = [] ∧ (step^[n] s).running = false
    ∧ (step^[n] s).current = none := by
  induction q with
  | nil =>
    intro s t hc hq hd
    intro n
    have hn : n = t.fails + 1 := by simp [n]
    rw [hn, Function.iterate_succ_apply', step_fails_iter t.fails s t hc rfl]
    rw [step_done_nil rfl rfl (by simp [hq])]
    simp [taskTrace, hd, List.append_assoc]
  | cons u rest ih =>
    intro s t hc hq hd
    intro n
    have hn : n = ((u.fails + 1 + (rest.map (fun v => v.fails + 1)).sum)) + (t.fails + 1) := by
      simp [n, List.map_cons, List.sum_cons]
      omega
    rw [hn, Function.iterate_add_apply]
    have h1 : step^[t.fails + 1] s
        = { s with trace := s.trace ++ failTrace t.id 1000 t.fails ++ [Ev.done t.id],
                   queue := rest, current := some u, delay := 1000 } := by
      rw [Function.iterate_succ_apply', step_fails_iter t.fails s t hc rfl]
      rw [@step_done_cons _ _ u rest rfl rfl (by simp [hq])]
      simp [hd]
    rw [h1]
    have := ih { s with trace := s.trace ++ failTrace t.id 1000 t.fails ++ [Ev.done t.id],
                        queue := rest, current := some u, delay := 1000 } u rfl rfl rfl
    refine ⟨?_, this.2.1, this.2.2.1, this.2.2.2⟩
    rw [this.1]
    simp [taskTrace, List.append_assoc]

/-- Total number of loop resumptions needed to drain tasks with the given
failure budgets: one per failure plus one per success. -/
def totalSteps (fs : List Nat) : Nat := (fs.map (· + 1)).sum

/-- Enqueue tasks with failure budgets `fs` (in order), then let the drain
loop run to quiescence. -/
def fullRun (fs : List Nat) : Sys :=
  execA (fs.map Act.enq ++ List.replicate (totalSteps fs) Act.step)

theorem fullRun_spec (fs : List Nat) :
    (fullRun fs).st.trace = ((mkTasks 0 fs).map taskTrace).flatten
    ∧ (fullRun fs).st.running = false ∧ (fullRun fs).st.queue = []
    ∧ (fullRun fs).st.current = none := by
  cases fs with
  | nil => exact ⟨rfl, rfl, rfl, rfl⟩
  | cons f rest =>
    have h0 : doAct Sys.init (Act.enq f)
        = { st := { queue := [], running := true, current := some ⟨0, f⟩,
                    delay := 1000, trace := [] },
            nextId := 1 } := by
      simp only [doAct]
      rw [enqueue_idle rfl rfl]
      rfl
    have h1 : List.foldl doAct Sys.init ((f :: rest).map Act.enq)
        = { st := { queue := mkTasks 1 rest, running := true, current := some ⟨0, f⟩,
                    delay := 1000, trace := [] },
            nextId := 1 + rest.length } := by
      simp only [List.map_cons, List.foldl_cons]
      rw [h0, foldl_enq_running rest _ rfl]
      rfl
    have hts : totalSteps (f :: rest)
        = (⟨0, f⟩ : Task).fails + 1
          + ((mkTasks 1 rest).map (fun u => u.fails + 1)).sum := by
      simp [totalSteps, mkTasks_map_cost]
    have hd := drain (mkTasks 1 rest)
      { queue := mkTasks 1 rest, running := true, current := some ⟨0, f⟩,
        delay := 1000, trace := [] }
      ⟨0, f⟩ rfl rfl rfl
    unfold fullRun execA
    rw [List.foldl_append, h1, foldl_steps]
    dsimp only
    rw [hts]
    refine ⟨?_, hd.2.2.1, hd.2.1, hd.2.2.2⟩
    rw [hd.1]
    simp

@[simp] theorem doneIds_failTrace (id : Nat) : ∀ k d, doneIds (failTrace id d k) = [] := by
  intro k
  induction k with
  | zero => intro d; rfl
  | succ k ih => intro d; simp only [failTrace, doneIds_cons_fail, doneIds_cons_wait]; exact ih _

@[simp] theorem waitsOf_failTrace (id : Nat) : ∀ k d, waitsOf (failTrace id d k) = backoffSeq d k := by
  intro k
  induction k with
  | zero => intro d; rfl
  | succ k ih =>
    intro d
    simp only [failTrace, waitsOf_cons_fail, waitsOf_cons_wait, backoffSeq]
    rw [ih]

@[simp] theorem doneIds_taskTrace (t : Task) : doneIds (taskTrace t) = [t.id] := by
  simp [taskTrace]

@[simp] theorem waitsOf_taskTrace (t : Task) : waitsOf (taskTrace t) = backoffSeq 1000 t.fails := by
  simp [taskTrace]

theorem doneIds_flatten_taskTraces (ts : List Task) :
    doneIds ((ts.map taskTrace).flatten) = ts.map Task.id := by
  induction ts with
  | nil => rfl
  | cons t ts ih => simp [List.flatten, ih]

theorem waitsOf_flatten_taskTraces (ts : List Task) :
    waitsOf ((ts.map taskTrace).flatten) = (ts.map (fun t => backoffSeq 1000 t.fails)).flatten := by
  induction ts with
  | nil => rfl
  | cons t ts ih => simp [List.flatten, ih]

/-- The delays of `k` failures starting at stage `j` of the schedule. -/
theorem backoffSeq_spec : ∀ (k j : Nat),
    backoffSeq (min (1000 * 2 ^ j) 30000) k
      = (List.range k).map (fun i => min (1000 * 2 ^ (j + i)) 30000) := by
  intro k
  induction k with
  | zero => intro j; rfl
  | succ k ih =>
    intro j
    have hd : min (min (1000 * 2 ^ j) 30000 * 2) 30000 = min (1000 * 2 ^ (j + 1)) 30000 := by
      have h2 : (1000 : Nat) * 2 ^ (j + 1) = 1000 * 2 ^ j * 2 := by ring
      rw [h2]
      omega
    rw [backoffSeq, hd, ih (j + 1), List.range_succ_eq_map]
    simp only [List.map_cons, List.map_map, Nat.add_zero]
    refine congrArg₂ _ rfl ?_
    refine List.map_congr_left ?_
    intro i _
    simp only [Function.comp]
    have : j + 1 + i = j + (i + 1) := by omega
    rw [this]

theorem backoffSeq_1000 (k : Nat) :
    backoffSeq 1000 k = (List.range k).map (fun i => 1000 * min (2 ^ i) 30) := by
  have h := backoffSeq_spec k 0
  rw [show min (1000 * 2 ^ 0) 30000 = 1000 from by norm_num] at h
  rw [h]
  refine List.map_congr_left ?_
  intro i _
  have : (0 : Nat) + i = i := by omega
  rw [this]
  have h30 : (30000 : Nat) = 1000 * 30 := by norm_num
  omega

theorem mkTasks_map_fails (fs : List Nat) :
    ∀ n, (mkTasks n fs).map Task.fails = fs := by
  induction fs with
  | nil => intro n; rfl
  | cons f fs ih => intro n; simp [ih]

/-- The backoff sleeps of a complete run are the per-task backoff blocks, in
enqueue order, each starting afresh at the 1000 ms floor. -/
theorem fullRun_waits (fs : List Nat) :
    waitsOf (fullRun fs).st.trace = (fs.map (fun K => backoffSeq 1000 K)).flatten := by
  rw [(fullRun_spec fs).1, waitsOf_flatten_taskTraces]
  have h : (mkTasks 0 fs).map (fun t => backoffSeq 1000 t.fails)
      = (fs.map (fun K => backoffSeq 1000 K)) := by
    have := mkTasks_map_fails fs 0
    calc (mkTasks 0 fs).map (fun t => backoffSeq 1000 t.fails)
        = ((mkTasks 0 fs).map Task.fails).map (fun K => backoffSeq 1000 K) := by
          rw [List.map_map]; rfl
      _ = (fs.map (fun K => backoffSeq 1000 K)) := by rw [this]
  rw [h]

/-- One task enqueued on the idle queue, failing `K` times then succeeding,
run to quiescence. -/
def runOne (K : Nat) : Sys := fullRun [K]

/-- Two tasks enqueued back-to-back, the first failing `K1` times and the
second `K2` times, run to quiescence. -/
def runTwo (K1 K2 : Nat) : Sys := fullRun [K1, K2]

/-! Claim theorems for the Retry Delivery Queue. -/

/-- C1: tasks on the retry queue are attempted and completed in exactly their
enqueue order.  For every interleaving of `enqueue` calls and drain-loop
progress: (i) the chronological sequence of executed task ids is weakly
increasing — so while the head task is retrying, no later-enqueued task
executes; (ii) the completions are exactly tasks `0, 1, …` in order; (iii) no
task still waiting in the queue has ever been executed.  Moreover (iv) in a
complete run every enqueued task is completed, in enqueue order: nothing is
dropped or skipped. -/
theorem retryQueue_fifo_no_skip :
    (∀ acts : List Act,
       (idsOf (execA acts).st.trace).Chain' (· ≤ ·)
       ∧ doneIds (execA acts).st.trace
           = List.range (doneIds (execA acts).st.trace).length
       ∧ (∀ t ∈ (execA acts).st.queue, ∀ i ∈ idsOf (execA acts).st.trace, i < t.id))
    ∧ (∀ fs : List Nat, doneIds (fullRun fs).st.trace = List.range fs.length) := by
  constructor
  · intro acts
    obtain ⟨hdone, hchain, hsome, hnone⟩ := inv_execA acts
    refine ⟨hchain, hdone, ?_⟩
    intro t ht i hi
    cases hc : (execA acts).st.current with
    | none =>
      obtain ⟨hq, _, _, _⟩ := hnone hc
      rw [hq] at ht
      exact absurd ht (List.not_mem_nil t)
    | some u =>
      obtain ⟨huid, _, hq, _, hids⟩ := hsome u hc
      have hti : t.id ∈ (execA acts).st.queue.map Task.id := List.mem_map_of_mem _ ht
      rw [hq] at hti
      have h1 := (List.mem_range'_1.mp hti).1
      have h2 := hids i hi
      omega
  · intro fs
    rw [(fullRun_spec fs).1, doneIds_flatten_taskTraces, mkTasks_map_id,
      List.range_eq_range']

theorem retryQueue_fifo_no_skip_witness :
    (⟨1, 0⟩ : Task) ∈ (execA [Act.enq 1, Act.enq 0, Act.step]).st.queue
    ∧ 0 ∈ idsOf (execA [Act.enq 1, Act.enq 0, Act.step]).st.trace
    ∧ 0 < (1 : Nat) :=
  ⟨by decide, by decide,
    (retryQueue_fifo_no_skip.1 [Act.enq 1, Act.enq 0, Act.step]).2.2
      ⟨1, 0⟩ (by decide) 0 (by decide)⟩

/-- C2: a task that fails `K` times and then succeeds waits
`min(1·2^i, 30)` time units (1 time unit = 1000 ms) before attempt `i+1`
(`i` 0-indexed), never more than 30 time units; and the backoff restarts at
the floor for the next task. -/
theorem retryQueue_backoff_schedule :
    (∀ K : Nat, waitsOf (runOne K).st.trace
        = (List.range K).map (fun i => 1000 * min (2 ^ i) 30))
    ∧ (∀ K : Nat, ∀ w ∈ waitsOf (runOne K).st.trace, w ≤ 30 * 1000)
    ∧ (∀ K1 K2 : Nat, waitsOf (runTwo K1 K2).st.trace
        = (List.range K1).map (fun i => 1000 * min (2 ^ i) 30)
          ++ (List.range K2).map (fun i => 1000 * min (2 ^ i) 30)) := by
  have hone : ∀ K : Nat, waitsOf (runOne K).st.trace
      = (List.range K).map (fun i => 1000 * min (2 ^ i) 30) := by
    intro K
    rw [show runOne K = fullRun [K] from rfl, fullRun_waits]
    simp [backoffSeq_1000]
  refine ⟨hone, ?_, ?_⟩
  · intro K w hw
    rw [hone K] at hw
    obtain ⟨i, _, hwi⟩ := List.mem_map.mp hw
    have := min_le_right (2 ^ i) 30
    omega
  · intro K1 K2
    rw [show runTwo K1 K2 = fullRun [K1, K2] from rfl, fullRun_waits]
    simp [backoffSeq_1000]

theorem retryQueue_backoff_schedule_witness :
    30000 ∈ waitsOf (runOne 6).st.trace ∧ 30000 ≤ 30 * 1000 :=
  ⟨by decide, retryQueue_backoff_schedule.2.1 6 30000 (by decide)⟩

/-- C3: at most one drain loop is in flight.  (i) An `enqueue` while the
queue is draining only appends the task — every other component of the
state, including the task under attempt and the trace, is unchanged, so no
second drain loop starts; (ii) an `enqueue` on the idle queue sets the
`running` flag synchronously, before the first suspension point of the drain
loop; (iii) in every reachable state the queue is idle (`running = false`)
exactly when it has emptied (no task under attempt and no queued task). -/
theorem retryQueue_single_drain :
    (∀ (s : QState) (t : Task), s.running = true →
        enqueue s t = { s with queue := s.queue ++ [t] })
    ∧ (∀ (s : QState) (t : Task), s.running = false → (enqueue s t).running = true)
    ∧ (∀ acts : List Act,
        (execA acts).st.running = false ↔
          ((execA acts).st.current = none ∧ (execA acts).st.queue = [])) := by
  refine ⟨fun s t h => enqueue_running h, ?_, ?_⟩
  · intro s t h
    cases hq : s.queue with
    | nil => rw [enqueue_idle h hq]
    | cons a l => simp [enqueue, h, hq]
  · intro acts
    obtain ⟨hdone, hchain, hsome, hnone⟩ := inv_execA acts
    constructor
    · intro hr
      cases hc : (execA acts).st.current with
      | none => exact ⟨rfl, (hnone hc).1⟩
      | some t =>
        have hrt := (hsome t hc).2.1
        rw [hr] at hrt
        exact absurd hrt (by simp)
    · intro h
      rw [← (hnone h.1).2.1]

theorem retryQueue_single_drain_witness :
    enqueue { queue := [], running := true, current := some ⟨0, 1⟩,
              delay := 1000, trace := [] } ⟨1, 0⟩
        = { queue := [⟨1, 0⟩], running := true, current := some ⟨0, 1⟩,
            delay := 1000, trace := [] }
    ∧ (enqueue QState.init ⟨0, 2⟩).running = true
    ∧ ((execA [Act.enq 0, Act.step]).st.running = false ↔
        ((execA [Act.enq 0, Act.step]).st.current = none
         ∧ (execA [Act.enq 0, Act.step]).st.queue = [])) :=
  ⟨retryQueue_single_drain.1 _ _ rfl, retryQueue_single_drain.2.1 _ _ rfl,
    retryQueue_single_drain.2.2 _⟩

/-! ## Base64 (Node `Buffer.toString('base64')` / `Buffer.from(_, 'base64')`)

Standard base64 with `=` padding, over byte lists (`Nat`s below 256). -/

/-- The standard base64 alphabet. -/
def b64Table : List Char :=
  ['A', 'B', 'C', 'D', 'E', 'F', 'G', 'H', 'I', 'J', 'K', 'L', 'M',
   'N', 'O', 'P', 'Q', 'R', 'S', 'T', 'U', 'V', 'W', 'X', 'Y', 'Z',
   'a', 'b', 'c', 'd', 'e', 'f', 'g', 'h', 'i', 'j', 'k', 'l', 'm',
   'n', 'o', 'p', 'q', 'r', 's', 't', 'u', 'v', 'w', 'x', 'y', 'z',
   '0', '1', '2', '3', '4', '5', '6', '7', '8', '9', '+', '/']

/-- The character encoding a sextet. -/
def b64Char (n : Nat) : Char := b64Table.getD n 'A'

/-- The sextet encoded by a character (`none` for characters outside the
alphabet, `=` included). -/
def b64Val (c : Char) : Option Nat := b64Table.indexOf? c

theorem b64Val_b64Char_fin : ∀ n : Fin 64, b64Val (b64Char n.val) = some n.val := by decide

theorem b64Char_ne_eq_fin : ∀ n : Fin 64, b64Char n.val ≠ '=' := by decide

theorem b64Val_b64Char (n : Nat) (h : n < 64) : b64Val (b64Char n) = some n :=
  b64Val_b64Char_fin ⟨n, h⟩

theorem b64Char_ne_eq (n : Nat) (h : n < 64) : b64Char n ≠ '=' :=
  b64Char_ne_eq_fin ⟨n, h⟩

/-- Base64 encoding of a byte list, three bytes to four characters, padding
the final partial group with `=`. -/
def b64encode : List Nat → List Char
  | [] => []
  | [a] => [b64Char (a / 4), b64Char (a % 4 * 16), '=', '=']
  | [a, b] => [b64Char (a / 4), b64Char (a % 4 * 16 + b / 16), b64Char (b % 16 * 4), '=']
  | a :: b :: c :: rest =>
      b64Char (a / 4) :: b64Char (a % 4 * 16 + b / 16) :: b64Char (b % 16 * 4 + c / 64)
        :: b64Char (c % 64) :: b64encode rest

/-- Base64 decoding, strict on structure: groups of four characters, padding
allowed only at the very end. -/
def b64decode : List Char → Option (List Nat)
  | [] => some []
  | c1 :: c2 :: c3 :: c4 :: rest =>
    match b64Val c1, b64Val c2 with
    | some v1, some v2 =>
      if c3 = '=' then
        if c4 = '=' ∧ rest = [] then some [v1 * 4 + v2 / 16] else none
      else
        match b64Val c3 with
        | some v3 =>
          if c4 = '=' then
            if rest = [] then some [v1 * 4 + v2 / 16, v2 % 16 * 16 + v3 / 4] else none
          else
            match b64Val c4 with
            | some v4 =>
              (b64decode rest).map
                (fun tl => (v1 * 4 + v2 / 16) :: (v2 % 16 * 16 + v3 / 4)
                  :: (v3 % 4 * 64 + v4) :: tl)
            | none => none
        | none => none
    | _, _ => none
  | _ => none

/-- Base64 round-trip: decoding an encoded byte list recovers it exactly. -/
theorem b64_roundtrip : ∀ bs : List Nat, (∀ x ∈ bs, x < 256) →
    b64decode (b64encode bs) = some bs := by
  intro bs
  induction bs using b64encode.induct with
  | case1 => intro _; rfl
  | case2 a =>
    intro h
    have ha : a < 256 := h a (by simp)
    show b64decode (b64Char (a / 4) :: b64Char (a % 4 * 16) :: '=' :: '=' :: []) = some [a]
    simp only [b64decode, b64Val_b64Char (a / 4) (by omega),
      b64Val_b64Char (a % 4 * 16) (by omega)]
    norm_num
    omega
  | case3 a b =>
    intro h
    have ha : a < 256 := h a (by simp)
    have hb : b < 256 := h b (by simp)
    show b64decode (b64Char (a / 4) :: b64Char (a % 4 * 16 + b / 16)
        :: b64Char (b % 16 * 4) :: '=' :: []) = some [a, b]
    simp only [b64decode, b64Val_b64Char (a / 4) (by omega),
      b64Val_b64Char (a % 4 * 16 + b / 16) (by omega),
      b64Val_b64Char (b % 16 * 4) (by omega)]
    rw [if_neg (b64Char_ne_eq (b % 16 * 4) (by omega))]
    norm_num
    omega
  | case4 a b c rest ih =>
    intro h
    have ha : a < 256 := h a (by simp)
    have hb : b < 256 := h b (by simp)
    have hc : c < 256 := h c (by simp)
    have hrest : ∀ x ∈ rest, x < 256 := fun x hx => h x (by simp [hx])
    show b64decode (b64Char (a / 4) :: b64Char (a % 4 * 16 + b / 16)
        :: b64Char (b % 16 * 4 + c / 64) :: b64Char (c % 64) :: b64encode rest)
      = some (a :: b :: c :: rest)
    simp only [b64decode, b64Val_b64Char (a / 4) (by omega),
      b64Val_b64Char (a % 4 * 16 + b / 16) (by omega),
      b64Val_b64Char (b % 16 * 4 + c / 64) (by omega),
      b64Val_b64Char (c % 64) (by omega)]
    rw [if_neg (b64Char_ne_eq (b % 16 * 4 + c / 64) (by omega)),
      if_neg (b64Char_ne_eq (c % 64) (by omega)), ih hrest]
    simp only [Option.map_some', Option.some.injEq, List.cons.injEq]
    refine ⟨by omega, by omega, by omega, trivial⟩

/-! ## UTF-8 (Node `Buffer.from(text, 'utf8')` / `buf.toString('utf8')`)

Text is modelled as its sequence of Unicode code points (`Nat`s below
0x110000).  `utf8Encode` is standard UTF-8; `utf8DecodeR` is the total
decoder used by `buf.toString('utf8')`, emitting U+FFFD on malformed input
(the replacement details on malformed input are irrelevant to the claims,
which only exercise well-formed byte sequences). -/

/-- UTF-8 encoding of one code point. -/
def utf8EncodeChar (c : Nat) : List Nat :=
  if c < 0x80 then [c]
  else if c < 0x800 then [0xC0 + c / 64, 0x80 + c % 64]
  else if c < 0x10000 then [0xE0 + c / 4096, 0x80 + c / 64 % 64, 0x80 + c % 64]
  else [0xF0 + c / 262144, 0x80 + c / 4096 % 64, 0x80 + c / 64 % 64, 0x80 + c % 64]

/-- UTF-8 encoding of a code-point sequence. -/
def utf8Encode (cps : List Nat) : List Nat := (cps.map utf8EncodeChar).flatten

/-- One UTF-8 decoding step on lead byte `b` with the remaining stream
`rest`: the decoded code point (U+FFFD on malformed input) and how many
continuation bytes of `rest` it consumed. -/
def utf8Step (b : Nat) (rest : List Nat) : Nat × Nat :=
  if b < 0x80 then (b, 0)
  else if b < 0xC0 then (0xFFFD, 0)
  else if b < 0xE0 then
    match rest with
    | b1 :: _ =>
      if 0x80 ≤ b1 ∧ b1 < 0xC0 then ((b - 0xC0) * 64 + (b1 - 0x80), 1) else (0xFFFD, 0)
    | [] => (0xFFFD, 0)
  else if b < 0xF0 then
    match rest with
    | b1 :: b2 :: _ =>
      if (0x80 ≤ b1 ∧ b1 < 0xC0) ∧ (0x80 ≤ b2 ∧ b2 < 0xC0) then
        ((b - 0xE0) * 4096 + (b1 - 0x80) * 64 + (b2 - 0x80), 2)
      else (0xFFFD, 0)
    | _ => (0xFFFD, 0)
  else if b < 0xF8 then
    match rest with
    | b1 :: b2 :: b3 :: _ =>
      if (0x80 ≤ b1 ∧ b1 < 0xC0) ∧ (0x80 ≤ b2 ∧ b2 < 0xC0) ∧ (0x80 ≤ b3 ∧ b3 < 0xC0) then
        ((b - 0xF0) * 262144 + (b1 - 0x80) * 4096 + (b2 - 0x80) * 64 + (b3 - 0x80), 3)
      else (0xFFFD, 0)
    | _ => (0xFFFD, 0)
  else (0xFFFD, 0)

/-- Total UTF-8 decoding with U+FFFD replacement on malformed input. -/
def utf8DecodeR : List Nat → List Nat
  | [] => []
  | b :: rest =>
    (utf8Step b rest).1 :: utf8DecodeR (rest.drop (utf8Step b rest).2)
termination_by l => l.length
decreasing_by simp only [List.length_cons, List.length_drop]; omega

theorem utf8DecodeR_nilEq : utf8DecodeR [] = [] := by
  rw [utf8DecodeR]

theorem utf8DecodeR_consEq (b : Nat) (rest : List Nat) :
    utf8DecodeR (b :: rest)
      = (utf8Step b rest).1 :: utf8DecodeR (rest.drop (utf8Step b rest).2) := by
  rw [utf8DecodeR]

theorem utf8Step_ascii {b : Nat} (h : b < 0x80) (rest : List Nat) :
    utf8Step b rest = (b, 0) := by
  simp only [utf8Step]
  rw [if_pos h]

theorem utf8Step_two {b b1 : Nat} (hb : 0xC0 ≤ b) (hb' : b < 0xE0)
    (h1 : 0x80 ≤ b1) (h1' : b1 < 0xC0) (rest : List Nat) :
    utf8Step b (b1 :: rest) = ((b - 0xC0) * 64 + (b1 - 0x80), 1) := by
  simp only [utf8Step]
  rw [if_neg (by omega), if_neg (by omega), if_pos (by omega), if_pos (by omega)]

theorem utf8Step_three {b b1 b2 : Nat} (hb : 0xE0 ≤ b) (hb' : b < 0xF0)
    (h1 : 0x80 ≤ b1) (h1' : b1 < 0xC0) (h2 : 0x80 ≤ b2) (h2' : b2 < 0xC0)
    (rest : List Nat) :
    utf8Step b (b1 :: b2 :: rest)
      = ((b - 0xE0) * 4096 + (b1 - 0x80) * 64 + (b2 - 0x80), 2) := by
  simp only [utf8Step]
  rw [if_neg (by omega), if_neg (by omega), if_neg (by omega), if_pos (by omega),
    if_pos (by omega)]

theorem utf8Step_four {b b1 b2 b3 : Nat} (hb : 0xF0 ≤ b) (hb' : b < 0xF8)
    (h1 : 0x80 ≤ b1) (h1' : b1 < 0xC0) (h2 : 0x80 ≤ b2) (h2' : b2 < 0xC0)
    (h3 : 0x80 ≤ b3) (h3' : b3 < 0xC0) (rest : List Nat) :
    utf8Step b (b1 :: b2 :: b3 :: rest)
      = ((b - 0xF0) * 262144 + (b1 - 0x80) * 4096 + (b2 - 0x80) * 64 + (b3 - 0x80), 3) := by
  simp only [utf8Step]
  rw [if_neg (by omega), if_neg (by omega), if_neg (by omega), if_neg (by omega),
    if_pos (by omega), if_pos (by omega)]

theorem utf8DecodeR_ascii {b : Nat} (h : b < 0x80) (rest : List Nat) :
    utf8DecodeR (b :: rest) = b :: utf8DecodeR rest := by
  rw [utf8DecodeR_consEq, utf8Step_ascii h]
  rfl

theorem utf8DecodeR_two {b b1 : Nat} (hb : 0xC0 ≤ b) (hb' : b < 0xE0)
    (h1 : 0x80 ≤ b1) (h1' : b1 < 0xC0) (rest : List Nat) :
    utf8DecodeR (b :: b1 :: rest)
      = ((b - 0xC0) * 64 + (b1 - 0x80)) :: utf8DecodeR rest := by
  rw [utf8DecodeR_consEq, utf8Step_two hb hb' h1 h1']
  rfl

theorem utf8DecodeR_three {b b1 b2 : Nat} (hb : 0xE0 ≤ b) (hb' : b < 0xF0)
    (h1 : 0x80 ≤ b1) (h1' : b1 < 0xC0) (h2 : 0x80 ≤ b2) (h2' : b2 < 0xC0)
    (rest : List Nat) :
    utf8DecodeR (b :: b1 :: b2 :: rest)
      = ((b - 0xE0) * 4096 + (b1 - 0x80) * 64 + (b2 - 0x80)) :: utf8DecodeR rest := by
  rw [utf8DecodeR_consEq, utf8Step_three hb hb' h1 h1' h2 h2']
  rfl

theorem utf8DecodeR_four {b b1 b2 b3 : Nat} (hb : 0xF0 ≤ b) (hb' : b < 0xF8)
    (h1 : 0x80 ≤ b1) (h1' : b1 < 0xC0) (h2 : 0x80 ≤ b2) (h2' : b2 < 0xC0)
    (h3 : 0x80 ≤ b3) (h3' : b3 < 0xC0) (rest : List Nat) :
    utf8DecodeR (b :: b1 :: b2 :: b3 :: rest)
      = ((b - 0xF0) * 262144 + (b1 - 0x80) * 4096 + (b2 - 0x80) * 64 + (b3 - 0x80))
          :: utf8DecodeR rest := by
  rw [utf8DecodeR_consEq, utf8Step_four hb hb' h1 h1' h2 h2' h3 h3']
  rfl

set_option maxRecDepth 4000 in
/-- Decoding an encoded code point at the head of a byte stream recovers it
and leaves the rest of the stream to be decoded. -/
theorem utf8DecodeR_encodeChar (c : Nat) (hc : c < 0x110000) (bs : List Nat) :
    utf8DecodeR (utf8EncodeChar c ++ bs) = c :: utf8DecodeR bs := by
  by_cases h1 : c < 0x80
  · simp only [utf8EncodeChar]
    rw [if_pos h1]
    show utf8DecodeR (c :: bs) = c :: utf8DecodeR bs
    rw [utf8DecodeR_ascii h1]
  · by_cases h2 : c < 0x800
    · simp only [utf8EncodeChar]
      rw [if_neg h1, if_pos h2]
      show utf8DecodeR ((0xC0 + c / 64) :: (0x80 + c % 64) :: bs) = c :: utf8DecodeR bs
      have hb1 : (0xC0 : Nat) ≤ 0xC0 + c / 64 := by omega
      have hb2 : 0xC0 + c / 64 < 0xE0 := by omega
      have hd1 : (0x80 : Nat) ≤ 0x80 + c % 64 := by omega
      have hd2 : 0x80 + c % 64 < 0xC0 := by omega
      rw [utf8DecodeR_two hb1 hb2 hd1 hd2 bs]
      congr 1
      omega
    · by_cases h3 : c < 0x10000
      · simp only [utf8EncodeChar]
        rw [if_neg h1, if_neg h2, if_pos h3]
        show utf8DecodeR ((0xE0 + c / 4096) :: (0x80 + c / 64 % 64) :: (0x80 + c % 64) :: bs)
          = c :: utf8DecodeR bs
        have hb1 : (0xE0 : Nat) ≤ 0xE0 + c / 4096 := by omega
        have hb2 : 0xE0 + c / 4096 < 0xF0 := by omega
        have hd1 : (0x80 : Nat) ≤ 0x80 + c / 64 % 64 := by omega
        have hd2 : 0x80 + c / 64 % 64 < 0xC0 := by omega
        have he1 : (0x80 : Nat) ≤ 0x80 + c % 64 := by omega
        have he2 : 0x80 + c % 64 < 0xC0 := by omega
        rw [utf8DecodeR_three hb1 hb2 hd1 hd2 he1 he2 bs]
        congr 1
        omega
      · simp only [utf8EncodeChar]
        rw [if_neg h1, if_neg h2, if_neg h3]
        show utf8DecodeR ((0xF0 + c / 262144) :: (0x80 + c / 4096 % 64)
            :: (0x80 + c / 64 % 64) :: (0x80 + c % 64) :: bs) = c :: utf8DecodeR bs
        have hb1 : (0xF0 : Nat) ≤ 0xF0 + c / 262144 := by omega
        have hb2 : 0xF0 + c / 262144 < 0xF8 := by omega
        have hd1 : (0x80 : Nat) ≤ 0x80 + c / 4096 % 64 := by omega
        have hd2 : 0x80 + c / 4096 % 64 < 0xC0 := by omega
        have he1 : (0x80 : Nat) ≤ 0x80 + c / 64 % 64 := by omega
        have he2 : 0x80 + c / 64 % 64 < 0xC0 := by omega
        have hf1 : (0x80 : Nat) ≤ 0x80 + c % 64 := by omega
        have hf2 : 0x80 + c % 64 < 0xC0 := by omega
        rw [utf8DecodeR_four hb1 hb2 hd1 hd2 he1 he2 hf1 hf2 bs]
        congr 1
        omega

/-- UTF-8 round-trip: decoding an encoded code-point sequence recovers it. -/
theorem utf8_roundtrip (cps : List Nat) (h : ∀ c ∈ cps, c < 0x110000) :
    utf8DecodeR (utf8Encode cps) = cps := by
  induction cps with
  | nil => simpa [utf8Encode] using utf8DecodeR_nilEq
  | cons c tl ih =>
    have hstep : utf8Encode (c :: tl) = utf8EncodeChar c ++ utf8Encode tl := by
      simp [utf8Encode]
    rw [hstep, utf8DecodeR_encodeChar c (h c (by simp)) (utf8Encode tl),
      ih (fun x hx => h x (by simp [hx]))]

/-- UTF-8 encoding produces bytes. -/
theorem utf8EncodeChar_lt_256 (c : Nat) (hc : c < 0x110000) :
    ∀ x ∈ utf8EncodeChar c, x < 256 := by
  intro x hx
  simp only [utf8EncodeChar] at hx
  by_cases h1 : c < 0x80
  · rw [if_pos h1] at hx
    simp at hx
    omega
  · by_cases h2 : c < 0x800
    · rw [if_neg h1, if_pos h2] at hx
      simp at hx
      rcases hx with hx | hx <;> omega
    · by_cases h3 : c < 0x10000
      · rw [if_neg h1, if_neg h2, if_pos h3] at hx
        simp at hx
        rcases hx with hx | hx | hx <;> omega
      · rw [if_neg h1, if_neg h2, if_neg h3] at hx
        simp at hx
        rcases hx with hx | hx | hx | hx <;> omega

theorem utf8Encode_lt_256 (cps : List Nat) (h : ∀ c ∈ cps, c < 0x110000) :
    ∀ x ∈ utf8Encode cps, x < 256 := by
  intro x hx
  rw [utf8Encode, List.mem_flatten] at hx
  obtain ⟨l, hl, hxl⟩ := hx
  rw [List.mem_map] at hl
  obtain ⟨c, hc, rfl⟩ := hl
  exact utf8EncodeChar_lt_256 c (h c hc) x hxl

/-! ## `sendFileSnapshot`: payload encoding -/

/-- The `content` field assembled by `sendFileSnapshot`:
`const content = isBin ? buf.toString('base64') : buf.toString('utf8')`, then
`content: isBin ? content : Buffer.from(content).toString('base64')` in the
payload.  The binary branch base64s the raw bytes; the textual branch decodes
the bytes as UTF-8 text and base64s that text's UTF-8 bytes. -/
def snapshotContent (bytes : List Nat) (isBin : Bool) : List Char :=
  if isBin then b64encode bytes
  else b64encode (utf8Encode (utf8DecodeR bytes))

/-- C8: the `content` field of a `fileSnapshot` payload is base64 in both
branches, and decoding reproduces the original.  Binary branch: base64
decoding the payload yields exactly the file's bytes.  Textual branch (a
textual file being one whose bytes are the UTF-8 encoding of its text):
base64-decoding the payload and interpreting the result as UTF-8 yields
exactly the original text. -/
theorem snapshot_content_roundtrip :
    (∀ bytes : List Nat, (∀ x ∈ bytes, x < 256) →
        b64decode (snapshotContent bytes true) = some bytes)
    ∧ (∀ text : List Nat, (∀ c ∈ text, c < 0x110000) →
        (b64decode (snapshotContent (utf8Encode text) false)).map utf8DecodeR
          = some text) := by
  constructor
  · intro bytes h
    rw [show snapshotContent bytes true = b64encode bytes from rfl]
    exact b64_roundtrip bytes h
  · intro text h
    have hb : ∀ x ∈ utf8Encode text, x < 256 := utf8Encode_lt_256 text h
    have hr : utf8DecodeR (utf8Encode text) = text := utf8_roundtrip text h
    rw [show snapshotContent (utf8Encode text) false
        = b64encode (utf8Encode (utf8DecodeR (utf8Encode text))) from rfl, hr,
      b64_roundtrip _ hb, Option.map_some', hr]

theorem snapshot_content_roundtrip_witness :
    ((∀ x ∈ [0, 255, 16], x < 256)
      ∧ b64decode (snapshotContent [0, 255, 16] true) = some [0, 255, 16])
    ∧ ((∀ c ∈ [104, 105, 33], c < 0x110000)
      ∧ (b64decode (snapshotContent (utf8Encode [104, 105, 33]) false)).map utf8DecodeR
          = some [104, 105, 33]) :=
  ⟨⟨by decide, snapshot_content_roundtrip.1 _ (by decide)⟩,
   ⟨by decide, snapshot_content_roundtrip.2 _ (by decide)⟩⟩

/-! ## Change Capture Engine: paths and events

A file-system path is modelled as its list of name segments.  The handlers
all compute `path.relative(root.fsPath, uri.fsPath).replace(/\\/g, '/')`; for
a `uri` under `root` (the watcher only reports such paths), `path.relative`
yields the suffix segments joined by the platform separator. -/

/-- A file-system path as its list of name segments. -/
abbrev FsPath := List (List Char)

/-- Segments joined by the separator character `sep`. -/
def fsRender (sep : Char) : FsPath → List Char
  | [] => []
  | [seg] => seg
  | seg :: rest => seg ++ sep :: fsRender sep rest

/-- `path.relative(root, abs)` for `abs = root ++ suffix` under the root. -/
def pathRelative (sep : Char) (suffix : FsPath) : List Char := fsRender sep suffix

/-- `.replace(/\\/g, '/')`: every backslash becomes a forward slash. -/
def slashify (p : List Char) : List Char := p.map fun c => if c = '\\' then '/' else c

/-- `const rel = path.relative(root.fsPath, uri.fsPath).replace(/\\/g, '/')`,
shared by every watcher handler. -/
def relOf (sep : Char) (suffix : FsPath) : List Char := slashify (pathRelative sep suffix)

/-- The wire-level events POSTed to the collector. -/
inductive SyncEvent where
  | fileSnapshot (path : List Char) (isBinary : Bool) (content : List Char)
  | create (path : List Char) (isDirectory : Option Bool)
  | delete (path : List Char)
  | rename (oldPath newPath : List Char)
  | heartbeat (ts : Nat)
  deriving DecidableEq, Repr

/-- The `path`-valued fields an event carries. -/
def SyncEvent.paths : SyncEvent → List (List Char)
  | fileSnapshot p _ _ => [p]
  | create p _ => [p]
  | delete p => [p]
  | rename o n => [o, n]
  | heartbeat _ => []

/-- `sendFileSnapshot(abs)`: relativize the path, read the bytes, classify
binary vs text (`isBinaryFile`, an external oracle, is a parameter), build
the payload. -/
def sendFileSnapshot (sep : Char) (suffix : FsPath) (bytes : List Nat)
    (isBin : Bool) : SyncEvent :=
  SyncEvent.fileSnapshot (relOf sep suffix) isBin (snapshotContent bytes isBin)

/-- `vscode.FileType.File` bit. -/
def FileTypeFile : Nat := 1
/-- `vscode.FileType.Directory` bit. -/
def FileTypeDirectory : Nat := 2

/-- The `watcher.onDidCreate` handler: stat the path (`none` models a throw);
on a directory bit enqueue a directory-create; else on a file bit enqueue a
create with `isDirectory: false` followed by a snapshot; on a stat failure
enqueue a flagless create followed by a snapshot attempt.  The returned list
is the tasks enqueued, in order. -/
def onDidCreate (sep : Char) (suffix : FsPath) (statType : Option Nat)
    (bytes : List Nat) (isBin : Bool) : List SyncEvent :=
  let rel := relOf sep suffix
  match statType with
  | some t =>
    if t &&& FileTypeDirectory ≠ 0 then [SyncEvent.create rel (some true)]
    else if t &&& FileTypeFile ≠ 0 then
      [SyncEvent.create rel (some false), sendFileSnapshot sep suffix bytes isBin]
    else []
  | none =>
    [SyncEvent.create rel none, sendFileSnapshot sep suffix bytes isBin]

/-- The `watcher.onDidDelete` handler. -/
def onDidDelete (sep : Char) (suffix : FsPath) : SyncEvent :=
  SyncEvent.delete (relOf sep suffix)

/-- The `onDidRenameFiles` handler, for one renamed pair. -/
def onDidRename (sep : Char) (oldSuffix newSuffix : FsPath) : SyncEvent :=
  SyncEvent.rename (relOf sep oldSuffix) (relOf sep newSuffix)

theorem slashify_seg {seg : List Char} (h : ('\\' : Char) ∉ seg) : slashify seg = seg := by
  rw [slashify, List.map_congr_left, List.map_id]
  intro c hc
  simp only [id]
  rw [if_neg]
  intro hce
  exact h (hce ▸ hc)

/-- Relativized paths come out forward-slash separated for both host
separators, and equal the root-relative suffix rendering. -/
theorem relOf_forwardSlash (sep : Char) (hsep : sep = '/' ∨ sep = '\\') :
    ∀ suffix : FsPath, (∀ seg ∈ suffix, ('\\' : Char) ∉ seg) →
    relOf sep suffix = fsRender '/' suffix := by
  have hsepc : (if sep = '\\' then '/' else sep) = '/' := by
    rcases hsep with h | h <;> rw [h] <;> decide
  intro suffix
  induction suffix with
  | nil => intro _; rfl
  | cons seg rest ih =>
    intro h
    cases rest with
    | nil =>
      show slashify (fsRender sep [seg]) = fsRender '/' [seg]
      rw [show fsRender sep [seg] = seg from rfl, show fsRender '/' [seg] = seg from rfl]
      exact slashify_seg (h seg (by simp))
    | cons seg2 rest2 =>
      show slashify (fsRender sep (seg :: seg2 :: rest2)) = fsRender '/' (seg :: seg2 :: rest2)
      rw [show fsRender sep (seg :: seg2 :: rest2)
          = seg ++ sep :: fsRender sep (seg2 :: rest2) from rfl,
        show fsRender '/' (seg :: seg2 :: rest2)
          = seg ++ '/' :: fsRender '/' (seg2 :: rest2) from rfl]
      have ih' : slashify (fsRender sep (seg2 :: rest2)) = fsRender '/' (seg2 :: rest2) :=
        ih (fun s hs => h s (by simp [hs]))
      rw [slashify, List.map_append, List.map_cons]
      rw [← slashify, ← slashify, slashify_seg (h seg (by simp)), hsepc, ih']

/-- C4: a create event on a path that stats as a file enqueues a
`create{isDirectory:false}` task and then a `fileSnapshot` task, in that
order; if the stat throws, a flag-less `create` followed by a snapshot
attempt.  Enqueuing two tasks back-to-back puts them consecutively, in
order, at the tail of the drain queue, so the FIFO queue delivers the create
POST before the content POST. -/
theorem create_file_ordering :
    (∀ (sep : Char) (suffix : FsPath) (t : Nat) (bytes : List Nat) (isBin : Bool),
        t &&& FileTypeDirectory = 0 → t &&& FileTypeFile ≠ 0 →
        onDidCreate sep suffix (some t) bytes isBin
          = [SyncEvent.create (relOf sep suffix) (some false),
             sendFileSnapshot sep suffix bytes isBin])
    ∧ (∀ (sep : Char) (suffix : FsPath) (bytes : List Nat) (isBin : Bool),
        onDidCreate sep suffix none bytes isBin
          = [SyncEvent.create (relOf sep suffix) none,
             sendFileSnapshot sep suffix bytes isBin])
    ∧ (∀ (s : QState) (t1 t2 : Task), s.running = true →
        enqueue (enqueue s t1) t2 = { s with queue := s.queue ++ [t1, t2] }) := by
  refine ⟨?_, ?_, ?_⟩
  · intro sep suffix t bytes isBin hdir hfile
    simp only [onDidCreate]
    rw [if_neg (by simp [hdir]), if_pos hfile]
  · intro sep suffix bytes isBin
    rfl
  · intro s t1 t2 h
    rw [enqueue_running h,
      enqueue_running (show ({ s with queue := s.queue ++ [t1] } : QState).running = true from h)]
    simp [List.append_assoc]

theorem create_file_ordering_witness :
    ((1 : Nat) &&& FileTypeDirectory = 0 ∧ (1 : Nat) &&& FileTypeFile ≠ 0
      ∧ onDidCreate '/' [['a']] (some 1) [104] false
          = [SyncEvent.create (relOf '/' [['a']]) (some false),
             sendFileSnapshot '/' [['a']] [104] false])
    ∧ enqueue (enqueue ({ queue := [], running := true,
                          current := some ⟨0, 0⟩, delay := 1000,
                          trace := [] } : QState) ⟨1, 0⟩) ⟨2, 0⟩
        = { queue := [⟨1, 0⟩, ⟨2, 0⟩], running := true, current := some ⟨0, 0⟩,
            delay := 1000, trace := [] } :=
  ⟨⟨by decide, by decide,
      create_file_ordering.1 '/' [['a']] 1 [104] false (by decide) (by decide)⟩,
    create_file_ordering.2.2 _ ⟨1, 0⟩ ⟨2, 0⟩ rfl⟩

/-- C6: every event the watcher handlers enqueue (`fileSnapshot`, `create`,
`delete`, `rename`) carries `path` values equal to the forward-slash
rendering of the root-relative suffix, whether the host separator is `/` or
`\`. -/
theorem syncEvent_paths_root_relative :
    ∀ (sep : Char), sep = '/' ∨ sep = '\\' →
    ∀ (suffix oldSuffix newSuffix : FsPath),
    (∀ seg ∈ suffix, ('\\' : Char) ∉ seg ∧ ('/' : Char) ∉ seg) →
    (∀ seg ∈ oldSuffix, ('\\' : Char) ∉ seg ∧ ('/' : Char) ∉ seg) →
    (∀ seg ∈ newSuffix, ('\\' : Char) ∉ seg ∧ ('/' : Char) ∉ seg) →
    ∀ (bytes : List Nat) (isBin : Bool) (statType : Option Nat),
      (sendFileSnapshot sep suffix bytes isBin).paths = [fsRender '/' suffix]
      ∧ (∀ e ∈ onDidCreate sep suffix statType bytes isBin,
          e.paths = [fsRender '/' suffix])
      ∧ (onDidDelete sep suffix).paths = [fsRender '/' suffix]
      ∧ (onDidRename sep oldSuffix newSuffix).paths
          = [fsRender '/' oldSuffix, fsRender '/' newSuffix] := by
  intro sep hsep suffix oldS newS hs ho hn bytes isBin statType
  have hrel : relOf sep suffix = fsRender '/' suffix :=
    relOf_forwardSlash sep hsep suffix (fun seg h => (hs seg h).1)
  have hrelo : relOf sep oldS = fsRender '/' oldS :=
    relOf_forwardSlash sep hsep oldS (fun seg h => (ho seg h).1)
  have hreln : relOf sep newS = fsRender '/' newS :=
    relOf_forwardSlash sep hsep newS (fun seg h => (hn seg h).1)
  refine ⟨?_, ?_, ?_, ?_⟩
  · simp [sendFileSnapshot, SyncEvent.paths, hrel]
  · intro e he
    rcases statType with _ | t
    · simp only [onDidCreate, List.mem_cons, List.not_mem_nil, or_false] at he
      rcases he with rfl | rfl <;> simp [SyncEvent.paths, sendFileSnapshot, hrel]
    · by_cases hd : t &&& FileTypeDirectory ≠ 0
      · simp only [onDidCreate, if_pos hd, List.mem_cons, List.not_mem_nil, or_false] at he
        subst he
        simp [SyncEvent.paths, hrel]
      · by_cases hf : t &&& FileTypeFile ≠ 0
        · simp only [onDidCreate, if_neg hd, if_pos hf, List.mem_cons,
            List.not_mem_nil, or_false] at he
          rcases he with rfl | rfl <;> simp [SyncEvent.paths, sendFileSnapshot, hrel]
        · simp only [onDidCreate, if_neg hd, if_neg hf, List.not_mem_nil] at he
  · simp [onDidDelete, SyncEvent.paths, hrel]
  · simp [onDidRename, SyncEvent.paths, hrelo, hreln]

theorem syncEvent_paths_root_relative_witness :
    (onDidDelete '\\' [['a'], ['b']]).paths = [fsRender '/' [['a'], ['b']]]
    ∧ (onDidRename '\\' [['a'], ['b']] [['c']]).paths
        = [fsRender '/' [['a'], ['b']], fsRender '/' [['c']]] :=
  ⟨(syncEvent_paths_root_relative '\\' (Or.inr rfl) [['a'], ['b']] [['a'], ['b']] [['c']]
      (by decide) (by decide) (by decide) [] false none).2.2.1,
   (syncEvent_paths_root_relative '\\' (Or.inr rfl) [['a'], ['b']] [['a'], ['b']] [['c']]
      (by decide) (by decide) (by decide) [] false none).2.2.2⟩

/-! ## Text-document debounce (`onDidChangeTextDocument`)

`pendingTimers : Map<string, Timeout>`, virtual clock in milliseconds.  An
edit to a document with a non-`file` scheme or a path outside the session
root is ignored; otherwise the document's pending timer (if any) is
cancelled and replaced by one firing 500 ms later; a timer that fires
deletes its entry and calls `sendFileSnapshot`, reading the file from disk
at that moment.  `DebState.fired` records `(fireTime, key)` for each
snapshot callback that ran: the payload content is whatever is on disk at
`fireTime`. -/

/-- A text document as the engine sees it: its URI scheme and `fsPath`. -/
structure Doc where
  scheme : List Char
  fsPath : List Char
  deriving DecidableEq, Repr

/-- The `'file'` URI scheme. -/
def fileScheme : List Char := ['f', 'i', 'l', 'e']

/-- Debounce state: pending timers (key ↦ absolute fire time) and the
snapshots fired so far, as `(fireTime, key)`. -/
structure DebState where
  pending : List (List Char × Nat)
  fired : List (Nat × List Char)
  deriving DecidableEq, Repr

/-- `pendingTimers.set(key, …)`: replace in place or append. -/
def setKey (m : List (List Char × Nat)) (k : List Char) (v : Nat) :
    List (List Char × Nat) :=
  if m.any (fun p => p.1 = k) then m.map (fun p => if p.1 = k then (k, v) else p)
  else m ++ [(k, v)]

/-- Fire every timer due by time `τ`: its callback deletes the entry and
takes the snapshot. -/
def fireDue (τ : Nat) (st : DebState) : DebState :=
  { pending := st.pending.filter (fun q => τ < q.2),
    fired := st.fired ++ (st.pending.filter (fun q => q.2 ≤ τ)).map (fun q => (q.2, q.1)) }

/-- The `onDidChangeTextDocument` handler body at time `τ`. -/
def textChangeHandler (root : List Char) (τ : Nat) (doc : Doc)
    (pending : List (List Char × Nat)) : List (List Char × Nat) :=
  if doc.scheme = fileScheme ∧ root <+: doc.fsPath then
    setKey pending doc.fsPath (τ + 500)
  else pending

/-- Deliver a time-ordered burst of edits, firing due timers before each
edit, then let all remaining timers elapse. -/
def runEdits (root : List Char) : DebState → List (Nat × Doc) → DebState
  | st, [] => { pending := [], fired := st.fired ++ st.pending.map (fun q => (q.2, q.1)) }
  | st, (τ, doc) :: rest =>
    let st1 := fireDue τ st
    runEdits root { st1 with pending := textChangeHandler root τ doc st1.pending } rest

/-- A whole debounce scenario from the idle state. -/
def debounceRun (root : List Char) (edits : List (Nat × Doc)) : DebState :=
  runEdits root { pending := [], fired := [] } edits

theorem runEdits_burst (root : List Char) (doc : Doc)
    (hs : doc.scheme = fileScheme) (hp : root <+: doc.fsPath) :
    ∀ (ts : List Nat) (t : Nat) (fr : List (Nat × List Char)),
    List.Chain (fun a b => a < b ∧ b < a + 500) t ts →
    runEdits root { pending := [(doc.fsPath, t + 500)], fired := fr }
        (ts.map (fun τ => (τ, doc)))
      = { pending := [], fired := fr ++ [(ts.getLastD t + 500, doc.fsPath)] } := by
  intro ts
  induction ts with
  | nil =>
    intro t fr _
    simp [runEdits, List.getLastD]
  | cons τ rest ih =>
    intro t fr hchain
    rcases hchain with _ | ⟨⟨h1, h2⟩, hchain'⟩
    simp only [List.map_cons, runEdits]
    have hfire : fireDue τ { pending := [(doc.fsPath, t + 500)], fired := fr }
        = { pending := [(doc.fsPath, t + 500)], fired := fr } := by
      simp only [fireDue]
      rw [List.filter_cons, List.filter_cons]
      simp only [List.filter_nil]
      rw [if_pos (by simp; omega), if_neg (by simp; omega)]
      simp
    rw [hfire]
    have hhandler : textChangeHandler root τ doc [(doc.fsPath, t + 500)]
        = [(doc.fsPath, τ + 500)] := by
      simp only [textChangeHandler, setKey]
      rw [if_pos ⟨hs, hp⟩, if_pos (by simp), List.map_cons]
      simp
    rw [hhandler, ih τ fr hchain', List.getLastD_cons]

theorem runEdits_ignored (root : List Char) (doc : Doc)
    (h : ¬(doc.scheme = fileScheme ∧ root <+: doc.fsPath)) :
    ∀ (ts : List Nat) (fr : List (Nat × List Char)),
    runEdits root { pending := [], fired := fr } (ts.map (fun τ => (τ, doc)))
      = { pending := [], fired := fr } := by
  intro ts
  induction ts with
  | nil => intro fr; simp [runEdits]
  | cons τ rest ih =>
    intro fr
    simp only [List.map_cons, runEdits]
    have hfire : fireDue τ { pending := [], fired := fr }
        = { pending := [], fired := fr } := by
      simp [fireDue]
    rw [hfire]
    have hhandler : textChangeHandler root τ doc [] = [] := by
      simp only [textChangeHandler]
      rw [if_neg h]
    rw [hhandler, ih fr]

/-- C5: a burst of `N ≥ 1` edits to the same document, each within 0.5 time
units (500 ms) of the previous, produces exactly one `fileSnapshot`, fired
when the window finally elapses uninterrupted at `t_last + 500`; its content
is whatever is on disk at that moment.  Edits to documents with a non-`file`
scheme or outside the session root produce no task at all. -/
theorem debounce_collapsing :
    (∀ (root : List Char) (doc : Doc) (t0 : Nat) (rest : List Nat),
        List.Chain (fun a b => a < b ∧ b < a + 500) t0 rest →
        doc.scheme = fileScheme → root <+: doc.fsPath →
        (debounceRun root ((t0 :: rest).map (fun τ => (τ, doc)))).fired
            = [(rest.getLastD t0 + 500, doc.fsPath)]
          ∧ ∀ disk : Nat → List Nat,
            ((debounceRun root ((t0 :: rest).map (fun τ => (τ, doc)))).fired).map
                (fun q => disk q.1)
              = [disk (rest.getLastD t0 + 500)])
    ∧ (∀ (root : List Char) (doc : Doc) (ts : List Nat),
        (doc.scheme ≠ fileScheme ∨ ¬ root <+: doc.fsPath) →
        (debounceRun root (ts.map (fun τ => (τ, doc)))).fired = []) := by
  constructor
  · intro root doc t0 rest hchain hs hp
    have hrun : (debounceRun root ((t0 :: rest).map (fun τ => (τ, doc)))).fired
        = [(rest.getLastD t0 + 500, doc.fsPath)] := by
      unfold debounceRun
      simp only [List.map_cons, runEdits]
      have hfire : fireDue t0 { pending := [], fired := [] }
          = { pending := [], fired := [] } := by
        simp [fireDue]
      rw [hfire]
      have hhandler : textChangeHandler root t0 doc []
          = [(doc.fsPath, t0 + 500)] := by
        simp only [textChangeHandler, setKey]
        rw [if_pos ⟨hs, hp⟩, if_neg (by simp)]
        simp
      rw [hhandler, runEdits_burst root doc hs hp rest t0 [] hchain]
      simp
    exact ⟨hrun, fun disk => by rw [hrun]; rfl⟩
  · intro root doc ts h
    unfold debounceRun
    rw [runEdits_ignored root doc (by tauto) ts []]

theorem debounce_collapsing_witness :
    (List.Chain (fun a b => a < b ∧ b < a + 500) 100 [300, 600]
      ∧ (⟨fileScheme, ['r', '/', 'a']⟩ : Doc).scheme = fileScheme
      ∧ ['r'] <+: ['r', '/', 'a']
      ∧ (debounceRun ['r']
            ([100, 300, 600].map (fun τ => (τ, (⟨fileScheme, ['r', '/', 'a']⟩ : Doc))))).fired
          = [(1100, ['r', '/', 'a'])])
    ∧ (debounceRun ['r']
          ([100].map (fun τ => (τ, (⟨['h', 't', 't', 'p'], ['r', '/', 'a']⟩ : Doc))))).fired
        = [] :=
  ⟨⟨List.Chain.cons ⟨by omega, by omega⟩ (List.Chain.cons ⟨by omega, by omega⟩ List.Chain.nil),
      rfl, by decide,
      (debounce_collapsing.1 ['r'] ⟨fileScheme, ['r', '/', 'a']⟩ 100 [300, 600]
        (List.Chain.cons ⟨by omega, by omega⟩
          (List.Chain.cons ⟨by omega, by omega⟩ List.Chain.nil)) rfl (by decide)).1⟩,
    debounce_collapsing.2 ['r'] ⟨['h', 't', 't', 'p'], ['r', '/', 'a']⟩ [100]
      (Or.inl (by decide))⟩

/-! ## `cleanupOldSessions`

Paths are segment lists (`FsPath`).  The code computes
`preserve = openFolders.filter(p => p.startsWith(baseRoot.fsPath + path.sep))`
— at the segment level, open folders strictly extending the sessions root —
and then deletes (`{recursive: true}`) every directory-listing child whose
full path is not a member of `preserve`.  The model returns the list of
top-level paths passed to `fs.delete`; a path is deleted iff some deleted
top-level path is a prefix of it (recursive deletion). -/

/-- The `preserve` set: open workspace folders strictly under the root. -/
def preservedSet (baseRoot : FsPath) (openFolders : List FsPath) : List FsPath :=
  openFolders.filter (fun p => baseRoot <+: p ∧ p ≠ baseRoot)

/-- `cleanupOldSessions`: the children of the sessions root (from the
directory listing `childNames`) whose paths are deleted recursively. -/
def cleanupOldSessions (baseRoot : FsPath) (childNames : List (List Char))
    (openFolders : List FsPath) : List FsPath :=
  (childNames.map (fun n => baseRoot ++ [n])).filter
    (fun child => ¬ child ∈ preservedSet baseRoot openFolders)

/-- A path is deleted iff it lies under some recursively-deleted top path. -/
def isDeleted (deletedTop : List FsPath) (p : FsPath) : Bool :=
  deletedTop.any (fun d => d.isPrefixOf p)

/-- C7 counterexample: with sessions root `t/w`, one stale child `s`, and
`t/w/s/u` currently open as a workspace folder, the child `t/w/s` is not in
the preserve set (preservation is by exact path match on children), so it is
deleted recursively — and the currently open workspace folder `t/w/s/u` is
deleted with it. -/
theorem cleanup_open_nested_deleted :
    isDeleted
      (cleanupOldSessions [['t'], ['w']] [['s']] [[['t'], ['w'], ['s'], ['u']]])
      [['t'], ['w'], ['s'], ['u']] = true := by decide

/-- C7 amended: every child of the sessions root that is not a currently
open workspace folder is deleted; an open workspace folder that is a
*direct child* of the sessions root is never deleted (not directly, and not
via any other child's recursive deletion).  (An open folder nested deeper
under a stale child is deleted together with that child, per the
counterexample.) -/
theorem cleanup_amended :
    ∀ (base : FsPath) (names : List (List Char)) (opn : List FsPath),
    (∀ n ∈ names, base ++ [n] ∉ opn →
        base ++ [n] ∈ cleanupOldSessions base names opn)
    ∧ (∀ n ∈ names, base ++ [n] ∈ opn →
        isDeleted (cleanupOldSessions base names opn) (base ++ [n]) = false) := by
  intro base names opn
  constructor
  · intro n hn hopen
    have hmem : base ++ [n] ∈ names.map (fun m => base ++ [m]) :=
      List.mem_map_of_mem _ hn
    rw [cleanupOldSessions, List.mem_filter]
    refine ⟨hmem, ?_⟩
    rw [decide_eq_true_eq]
    intro hpres
    exact hopen (List.mem_of_mem_filter hpres)
  · intro n hn hopen
    rw [isDeleted, List.any_eq_false]
    intro d hd
    rw [cleanupOldSessions, List.mem_filter] at hd
    obtain ⟨hdmem, hdnp⟩ := hd
    rw [List.mem_map] at hdmem
    obtain ⟨n', hn', rfl⟩ := hdmem
    rw [decide_eq_true_eq] at hdnp
    intro hpre
    rw [List.isPrefixOf_iff_prefix] at hpre
    have heq : base ++ [n'] = base ++ [n] := hpre.eq_of_length (by simp)
    apply hdnp
    rw [heq, preservedSet, List.mem_filter]
    refine ⟨hopen, ?_⟩
    rw [decide_eq_true_eq]
    refine ⟨List.prefix_append base [n], ?_⟩
    intro h
    simpa using congrArg List.length h

theorem cleanup_amended_witness :
    (['x'] ∈ [['x'], ['y']] ∧ ([['b']] ++ [['x']] : FsPath) ∉ [[['b'], ['y']]]
      ∧ [['b']] ++ [['x']] ∈ cleanupOldSessions [['b']] [['x'], ['y']] [[['b'], ['y']]])
    ∧ (['y'] ∈ [['x'], ['y']] ∧ ([['b']] ++ [['y']] : FsPath) ∈ [[['b'], ['y']]]
      ∧ isDeleted (cleanupOldSessions [['b']] [['x'], ['y']] [[['b'], ['y']]])
          ([['b']] ++ [['y']]) = false) :=
  ⟨⟨by decide, by decide,
      (cleanup_amended [['b']] [['x'], ['y']] [[['b'], ['y']]]).1 ['x'] (by decide) (by decide)⟩,
   ⟨by decide, by decide,
      (cleanup_amended [['b']] [['x'], ['y']] [[['b'], ['y']]]).2 ['y'] (by decide) (by decide)⟩⟩

/-! ## Manifest Materializer (`downloadAndMaterializeWorkspace`)

The function is modelled as a pure map from its inputs — the identity
payload, the fetch outcome, the sessions-root directory listing and the open
workspace folders (for cleanup), and the fresh session folder name (the
timestamp + random suffix) — to the ordered list of side effects it performs
plus an optional error (`throw`).  `res.json()` failing to parse is
`body = none`. -/

structure StartPayload where
  student : Option (List Char)
  exercise : Option (List Char)
  token : Option (List Char)
  deriving DecidableEq, Repr

/-- JS truthiness of an optional string (`undefined` and `''` are falsy). -/
def truthy : Option (List Char) → Bool
  | none => false
  | some s => !s.isEmpty

/-- The query parameters set on the manifest URL:
`if (payload.student) url.searchParams.set('student', payload.student)` etc. -/
def queryOf (p : StartPayload) : List (List Char × List Char) :=
  (if truthy p.student then [(("student").toList, p.student.getD [])] else [])
  ++ (if truthy p.exercise then [(("exercise").toList, p.exercise.getD [])] else [])
  ++ (if truthy p.token then [(("token").toList, p.token.getD [])] else [])

inductive EntryType where
  | file
  | directory
  deriving DecidableEq, Repr

structure ManifestEntry where
  path : FsPath
  type : EntryType
  contentBase64 : Option (List Char)
  deriving DecidableEq, Repr

inductive MatErr where
  | fetchError (status : Nat)
  | decodeError
  deriving DecidableEq, Repr

/-- The observable side effects of materialization, in program order. -/
inductive Effect where
  | get (path : List Char) (query : List (List Char × List Char))
  | ensureDir (p : FsPath)
  | writeFile (p : FsPath) (bytes : List Nat)
  | deleteRec (p : FsPath)
  | writeConfig (p : FsPath) (serverUrl : List Char) (payload : StartPayload)
  | readFile (p : FsPath)
  | writeSettings (p : FsPath)
  deriving DecidableEq, Repr

def Effect.isGet : Effect → Bool
  | Effect.get _ _ => true
  | _ => false

def manifestPath : List Char := ("/manifest").toList

/-- `Buffer.from(s, 'base64')` (claims only exercise well-formed input). -/
def bufferFromBase64 (s : List Char) : List Nat := (b64decode s).getD []

/-- `writeFileFromBase64`. -/
def writeFileFromBase64 (target : FsPath) (s : List Char) : Effect :=
  Effect.writeFile target (bufferFromBase64 s)

/-- One iteration of the manifest loop: a directory entry is an `ensureDir`;
a file entry ensures its parent directory then writes
`entry.contentBase64 || ''` base64-decoded. -/
def materializeEntry (workspaceRoot : FsPath) (e : ManifestEntry) : List Effect :=
  match e.type with
  | EntryType.directory => [Effect.ensureDir (workspaceRoot ++ e.path)]
  | EntryType.file =>
      [Effect.ensureDir (workspaceRoot ++ e.path).dropLast,
       writeFileFromBase64 (workspaceRoot ++ e.path) (e.contentBase64.getD [])]

/-- The result of `fetch`: HTTP status plus the decoded JSON body
(`none` when `res.json()` rejects). -/
structure FetchResp where
  ok : Bool
  status : Nat
  body : Option (List ManifestEntry)
  deriving Repr

def vscodeDirName : List Char := (".vscode").toList
def markerName : List Char := ("workspace-launch-by-link.json").toList
def settingsName : List Char := ("settings.json").toList

def downloadAndMaterializeWorkspace (serverUrl : List Char) (payload : StartPayload)
    (resp : FetchResp) (childNames : List (List Char)) (openFolders : List FsPath)
    (sessionsRoot : FsPath) (folderName : List Char) : List Effect × Option MatErr :=
  let g := [Effect.get manifestPath (queryOf payload)]
  if resp.ok then
    match resp.body with
    | none => (g, some MatErr.decodeError)
    | some manifest =>
      let workspaceRoot := sessionsRoot ++ [folderName]
      let vscodeDir := workspaceRoot ++ [vscodeDirName]
      (g ++ [Effect.ensureDir sessionsRoot]
         ++ (cleanupOldSessions sessionsRoot childNames openFolders).map Effect.deleteRec
         ++ [Effect.ensureDir workspaceRoot]
         ++ (manifest.map (materializeEntry workspaceRoot)).flatten
         ++ [Effect.ensureDir vscodeDir,
             Effect.writeConfig (vscodeDir ++ [markerName]) serverUrl payload,
             Effect.readFile (vscodeDir ++ [settingsName]),
             Effect.writeSettings (vscodeDir ++ [settingsName])],
       none)
  else (g, some (MatErr.fetchError resp.status))

theorem materializeEntry_no_get (workspaceRoot : FsPath) (e : ManifestEntry) :
    ∀ x ∈ materializeEntry workspaceRoot e, x.isGet = false := by
  intro x hx
  rcases e with ⟨p, ty, cb⟩
  cases ty with
  | directory =>
    simp [materializeEntry] at hx
    subst hx; rfl
  | file =>
    simp [materializeEntry, writeFileFromBase64] at hx
    rcases hx with rfl | rfl <;> rfl

/-- C9: materialization issues exactly one GET, to `/manifest`, carrying the
present identity fields as query parameters, and it is the first effect; on
a non-2xx response it throws the fetch error having performed *only* that
GET — no retry, no session-root allocation, no local write of any kind. -/
theorem manifest_fetch_once_no_retry :
    ∀ (serverUrl : List Char) (payload : StartPayload) (resp : FetchResp)
      (childNames : List (List Char)) (openFolders : List FsPath)
      (sessionsRoot : FsPath) (folderName : List Char),
    (downloadAndMaterializeWorkspace serverUrl payload resp childNames
        openFolders sessionsRoot folderName).1.head?
      = some (Effect.get manifestPath (queryOf payload))
    ∧ (downloadAndMaterializeWorkspace serverUrl payload resp childNames
        openFolders sessionsRoot folderName).1.countP Effect.isGet = 1
    ∧ (resp.ok = false →
        downloadAndMaterializeWorkspace serverUrl payload resp childNames
            openFolders sessionsRoot folderName
          = ([Effect.get manifestPath (queryOf payload)],
             some (MatErr.fetchError resp.status)))
    ∧ (∀ s, payload.student = some s → s ≠ [] →
        (("student").toList, s) ∈ queryOf payload) := by
  intro serverUrl payload resp childNames openFolders sessionsRoot folderName
  have hq : ∀ s, payload.student = some s → s ≠ [] →
      (("student").toList, s) ∈ queryOf payload := by
    intro s hstu hne
    cases s with
    | nil => exact absurd rfl hne
    | cons a t =>
      simp [queryOf, truthy, hstu]
  rcases hok : resp.ok with _ | _
  · refine ⟨?_, ?_, ?_, hq⟩ <;>
      simp [downloadAndMaterializeWorkspace, hok, List.countP_cons, Effect.isGet,
        List.countP_nil]
  · rcases hbody : resp.body with _ | manifest
    · refine ⟨?_, ?_, ?_, hq⟩
      · simp [downloadAndMaterializeWorkspace, hok, hbody]
      · simp [downloadAndMaterializeWorkspace, hok, hbody, List.countP_cons,
          Effect.isGet, List.countP_nil]
      · intro h; exact absurd h (by simp)
    · have hrest : ∀ x ∈ (manifest.map
          (materializeEntry (sessionsRoot ++ [folderName]))).flatten, x.isGet = false := by
        intro x hx
        rw [List.mem_flatten] at hx
        obtain ⟨l, hl, hxl⟩ := hx
        rw [List.mem_map] at hl
        obtain ⟨e, _, rfl⟩ := hl
        exact materializeEntry_no_get _ e x hxl
      have h1 : ((manifest.map
          (materializeEntry (sessionsRoot ++ [folderName]))).flatten).countP
            Effect.isGet = 0 := by
        rw [List.countP_eq_zero]
        intro a ha
        rw [hrest a ha]
        simp
      have h2 : ((cleanupOldSessions sessionsRoot childNames openFolders).map
          Effect.deleteRec).countP Effect.isGet = 0 := by
        rw [List.countP_eq_zero]
        intro x hx
        rw [List.mem_map] at hx
        obtain ⟨p, _, rfl⟩ := hx
        simp [Effect.isGet]
      refine ⟨?_, ?_, ?_, hq⟩
      · simp [downloadAndMaterializeWorkspace, hok, hbody]
      · simp [downloadAndMaterializeWorkspace, hok, hbody, List.countP_append,
          List.countP_cons, List.countP_nil, h1, h2, Effect.isGet]
      · intro h; exact absurd h (by simp)

theorem manifest_fetch_once_no_retry_witness :
    ({ ok := false, status := 404, body := none } : FetchResp).ok = false
    ∧ downloadAndMaterializeWorkspace [] ⟨some ("a").toList, none, none⟩
        { ok := false, status := 404, body := none } [] [] [] []
      = ([Effect.get manifestPath (queryOf ⟨some ("a").toList, none, none⟩)],
         some (MatErr.fetchError 404))
    ∧ (("student").toList, ("a").toList) ∈ queryOf ⟨some ("a").toList, none, none⟩ :=
  ⟨rfl,
   (manifest_fetch_once_no_retry [] ⟨some ("a").toList, none, none⟩
      { ok := false, status := 404, body := none } [] [] [] []).2.2.1 rfl,
   (manifest_fetch_once_no_retry [] ⟨some ("a").toList, none, none⟩
      { ok := false, status := 404, body := none } [] [] [] []).2.2.2
      ("a").toList rfl (by decide)⟩

/-- C10: a manifest entry of type `file` with no `contentBase64` does not
fail materialization: `entry.contentBase64 || ''` decodes to the empty byte
string, so a zero-byte file is written at the entry's target path; and a
successful fetch with a well-formed body never returns an error regardless
of the entries. -/
theorem file_entry_missing_content :
    (∀ (root : FsPath) (e : ManifestEntry), e.type = EntryType.file →
        e.contentBase64 = none →
        materializeEntry root e
          = [Effect.ensureDir (root ++ e.path).dropLast,
             Effect.writeFile (root ++ e.path) []])
    ∧ (∀ (serverUrl : List Char) (payload : StartPayload) (resp : FetchResp)
          (childNames : List (List Char)) (openFolders : List FsPath)
          (sessionsRoot : FsPath) (folderName : List Char) (m : List ManifestEntry),
        resp.ok = true → resp.body = some m →
        (downloadAndMaterializeWorkspace serverUrl payload resp childNames
            openFolders sessionsRoot folderName).2 = none) := by
  constructor
  · intro root e ht hc
    rcases e with ⟨p, ty, cb⟩
    simp only at ht hc
    subst ht
    subst hc
    rfl
  · intro serverUrl payload resp childNames openFolders sessionsRoot folderName m hok hm
    simp [downloadAndMaterializeWorkspace, hok, hm]

theorem file_entry_missing_content_witness :
    ((⟨[("a").toList], EntryType.file, none⟩ : ManifestEntry).type = EntryType.file
      ∧ (⟨[("a").toList], EntryType.file, none⟩ : ManifestEntry).contentBase64 = none
      ∧ materializeEntry [] ⟨[("a").toList], EntryType.file, none⟩
          = [Effect.ensureDir ([] ++ [("a").toList] : FsPath).dropLast,
             Effect.writeFile ([] ++ [("a").toList]) []])
    ∧ (downloadAndMaterializeWorkspace [] ⟨none, none, none⟩
        { ok := true, status := 200,
          body := some [⟨[("a").toList], EntryType.file, none⟩] } [] [] [] []).2 = none :=
  ⟨⟨rfl, rfl,
      file_entry_missing_content.1 [] ⟨[("a").toList], EntryType.file, none⟩ rfl rfl⟩,
   file_entry_missing_content.2 [] ⟨none, none, none⟩
      { ok := true, status := 200, body := some [⟨[("a").toList], EntryType.file, none⟩] }
      [] [] [] [] [⟨[("a").toList], EntryType.file, none⟩] rfl rfl⟩

end WLBL
